import Mathlib

/-!
Verification of the group-assignment core of `group-shuffle-gpt.py` and the
pair-counting report of `group-report.py`.

The Python functions are embedded shallowly:
* `initial_group_structure` models the size planner (the linear search over
  the number `y` of size-4 groups is modelled by the fuel recursion `searchY`,
  whose fuel `n / 4 + 1` is exactly the length of Python's
  `range(0, num_students // 4 + 1)`).
* `compute_past_pairings` models the pair-history builder: the dictionary of
  `frozenset` keyed counters is modelled by counting, among all combination
  pairs emitted by the source loops, those equal to the queried unordered pair.
* `grouping_conflict_score` / `total_conflict_score` model the conflict scorer;
  the weight dictionary is modelled as a function on ordered pairs (a lookup
  keyed by a two-element `frozenset` is one such function).
* `assign_groups` models the randomized search; `random.shuffle` is modelled by
  an explicit stream `sh : Nat → List Nat` of shuffled lists, one per attempt,
  and Python's `float('inf')` / `None` score sentinels by the type `PyScore`.
* `assign_group_names` models the group namer; the Python dict is modelled as
  an insertion-ordered association list with last-write-wins lookup `dictGet`.
* `Table`, `compute_past_pairings_table`, `count_groupings_table` model the two
  roster-table pair counters of the two scripts.
-/

namespace GroupShuffle

/-- All combination pairs of a list, in the order produced by
`itertools.combinations(l, 2)`. -/
def combPairs {α : Type} : List α → List (α × α)
  | [] => []
  | x :: xs => (xs.map fun y => (x, y)) ++ combPairs xs

/-- Whether an ordered pair equals the unordered pair `{a, b}`: this is the
test "the stored `frozenset` key equals `frozenset((a, b))`". -/
def pairMatch {α : Type} [DecidableEq α] (a b : α) (e : α × α) : Bool :=
  decide ((e.1 = a ∧ e.2 = b) ∨ (e.1 = b ∧ e.2 = a))

/-- Model of `compute_past_pairings` at the level of the extracted history:
each element of `history` is the list of groups of one (non-skipped) grouping
column, each group the list of roster numbers of its members.  The value of the
defaultdict at `frozenset((a, b))` is the number of combination pairs emitted
by the nested source loops that equal that unordered pair. -/
def compute_past_pairings (history : List (List (List Nat))) (a b : Nat) : Nat :=
  ((history.flatten.map combPairs).flatten).countP (pairMatch a b)

theorem countP_flatten_eq {α : Type} (p : α → Bool) (L : List (List α)) :
    L.flatten.countP p = (L.map (List.countP p)).sum := by
  induction L with
  | nil => simp
  | cons l L ih => simp [List.countP_append, ih]

theorem sum_map_ite_eq_countP {α : Type} (P : α → Prop) [DecidablePred P] (L : List α) :
    (L.map fun g => if P g then 1 else 0).sum = L.countP fun g => decide (P g) := by
  induction L with
  | nil => simp
  | cons l L ih => by_cases h : P l <;> simp [List.countP_cons, h, ih, Nat.add_comm]

theorem countP_eq_decide_mem {α : Type} [DecidableEq α] {xs : List α} (h : xs.Nodup) (c : α) :
    xs.countP (fun y => decide (y = c)) = if c ∈ xs then 1 else 0 := by
  induction xs with
  | nil => simp
  | cons x xs ih =>
    rw [List.nodup_cons] at h
    by_cases hxc : x = c
    · subst hxc
      rw [List.countP_cons_of_pos _ _ (by simp)]
      rw [ih h.2]
      simp [h.1]
    · rw [List.countP_cons_of_neg _ _ (by simp [hxc])]
      rw [ih h.2]
      have hcx : ¬(c = x) := fun h2 => hxc h2.symm
      simp [List.mem_cons, hcx]

theorem countP_combPairs {α : Type} [DecidableEq α] {g : List α} (hg : g.Nodup)
    {a b : α} (hab : a ≠ b) :
    (combPairs g).countP (pairMatch a b) = if a ∈ g ∧ b ∈ g then 1 else 0 := by
  induction g with
  | nil => simp [combPairs]
  | cons x xs ih =>
    rw [List.nodup_cons] at hg
    obtain ⟨hx, hxs⟩ := hg
    rw [combPairs, List.countP_append, List.countP_map, ih hxs]
    by_cases hxa : x = a
    · subst hxa
      have h1 : xs.countP (pairMatch x b ∘ fun y => (x, y))
          = xs.countP (fun y => decide (y = b)) := by
        refine List.countP_congr fun y hy => ?_
        simp [pairMatch, hab]
      rw [h1, countP_eq_decide_mem hxs b]
      have hax : ¬(x ∈ xs ∧ b ∈ xs) := fun h => hx h.1
      have hbx : b ≠ x := fun h => hab h.symm
      simp [hax, List.mem_cons, hbx]
    · by_cases hxb : x = b
      · subst hxb
        have h1 : xs.countP (pairMatch a x ∘ fun y => (x, y))
            = xs.countP (fun y => decide (y = a)) := by
          refine List.countP_congr fun y hy => ?_
          simp [pairMatch, hxa]
        rw [h1, countP_eq_decide_mem hxs a]
        have hbx : ¬(a ∈ xs ∧ x ∈ xs) := fun h => hx h.2
        have hax : ¬(a = x) := fun h => hxa h.symm
        simp [hbx, List.mem_cons, hax]
      · have h1 : xs.countP (pairMatch a b ∘ fun y => (x, y)) = 0 := by
          rw [List.countP_eq_zero]
          intro y hy
          simp [pairMatch, hxa, hxb]
        rw [h1]
        simp only [List.mem_cons]
        have hax : ¬(a = x) := fun h => hxa h.symm
        have hbx : ¬(b = x) := fun h => hxb h.symm
        simp [hax, hbx]

/-- C2: over any history of past partitions whose groups have no duplicate
members, the mapping built by `compute_past_pairings` gives each unordered pair
`{a, b}` (`a ≠ b`) exactly the number of past groups containing both `a` and
`b` (so singleton groups contribute nothing and never-grouped pairs get 0), and
the mapping is symmetric. -/
theorem C2_past_pairings (history : List (List (List Nat)))
    (hnd : ∀ g ∈ history.flatten, g.Nodup) (a b : Nat) (hab : a ≠ b) :
    compute_past_pairings history a b
      = history.flatten.countP (fun g => decide (a ∈ g ∧ b ∈ g)) ∧
    compute_past_pairings history a b = compute_past_pairings history b a := by
  constructor
  · rw [compute_past_pairings, countP_flatten_eq, List.map_map]
    have h1 : (history.flatten.map (List.countP (pairMatch a b) ∘ combPairs))
        = history.flatten.map (fun g => if a ∈ g ∧ b ∈ g then 1 else 0) := by
      refine List.map_congr_left fun g hg => ?_
      exact countP_combPairs (hnd g hg) hab
    rw [h1, sum_map_ite_eq_countP]
  · rw [compute_past_pairings, compute_past_pairings]
    refine List.countP_congr fun e he => ?_
    simp [pairMatch]
    tauto

/-- Witness for C2 on a one-partition history. -/
theorem C2_past_pairings_witness :
    compute_past_pairings [[[1, 2, 3], [4, 5, 6]]] 1 2
      = ([[[1, 2, 3], [4, 5, 6]]] : List (List (List Nat))).flatten.countP
          (fun g => decide (1 ∈ g ∧ 2 ∈ g)) ∧
    compute_past_pairings [[[1, 2, 3], [4, 5, 6]]] 1 2
      = compute_past_pairings [[[1, 2, 3], [4, 5, 6]]] 2 1 :=
  C2_past_pairings [[[1, 2, 3], [4, 5, 6]]] (by decide) 1 2 (by decide)

/-- Model of `initial_group_structure`'s loop `for y in range(0, n // 4 + 1)`:
`searchY n y fuel` returns the first `y' ∈ [y, y + fuel)` with
`(n - 4 * y') % 3 == 0`, if any.  For `y ≤ n / 4` the Python operand
`num_students - 4 * y` is non-negative, so `Nat` subtraction agrees with it. -/
def searchY (n : Nat) : Nat → Nat → Option Nat
  | _, 0 => Option.none
  | y, Nat.succ fuel => if (n - 4 * y) % 3 = 0 then some y else searchY n (y + 1) fuel

/-- Model of `initial_group_structure`: `[3] * x + [4] * y` for the first
feasible `y`, else the empty list. -/
def initial_group_structure (n : Nat) : List Nat :=
  match searchY n 0 (n / 4 + 1) with
  | Option.some y => List.replicate ((n - 4 * y) / 3) 3 ++ List.replicate y 4
  | Option.none => []

theorem searchY_some_spec {n y fuel y' : Nat} (h : searchY n y fuel = some y') :
    y ≤ y' ∧ y' < y + fuel ∧ (n - 4 * y') % 3 = 0 ∧
      ∀ z, y ≤ z → z < y' → (n - 4 * z) % 3 ≠ 0 := by
  induction fuel generalizing y with
  | zero => simp [searchY] at h
  | succ fuel ih =>
    rw [searchY] at h
    by_cases h3 : (n - 4 * y) % 3 = 0
    · rw [if_pos h3] at h
      obtain rfl : y = y' := by simpa using h
      exact ⟨le_refl _, by omega, h3, fun z hz hz2 => by omega⟩
    · rw [if_neg h3] at h
      obtain ⟨h1, h2, h4, h5⟩ := ih h
      refine ⟨by omega, by omega, h4, fun z hz hz2 => ?_⟩
      rcases Nat.eq_or_lt_of_le hz with rfl | hlt
      · exact h3
      · exact h5 z hlt hz2

theorem searchY_none_spec {n y fuel : Nat} (h : searchY n y fuel = Option.none) :
    ∀ z, y ≤ z → z < y + fuel → (n - 4 * z) % 3 ≠ 0 := by
  induction fuel generalizing y with
  | zero => intro z h1 h2; omega
  | succ fuel ih =>
    rw [searchY] at h
    by_cases h3 : (n - 4 * y) % 3 = 0
    · rw [if_pos h3] at h; exact absurd h (by simp)
    · rw [if_neg h3] at h
      intro z hz hz2
      rcases Nat.eq_or_lt_of_le hz with rfl | hlt
      · exact h3
      · exact ih h z hlt (by omega)

theorem igs_of_searchY_some {n y : Nat} (h : searchY n 0 (n / 4 + 1) = some y) :
    initial_group_structure n =
      List.replicate ((n - 4 * y) / 3) 3 ++ List.replicate y 4 := by
  rw [initial_group_structure, h]

theorem igs_sum_of_some {n y : Nat} (h : searchY n 0 (n / 4 + 1) = some y) :
    (initial_group_structure n).sum = n := by
  obtain ⟨-, hlt, hmod, -⟩ := searchY_some_spec h
  rw [igs_of_searchY_some h]
  have hy : 4 * y ≤ n := by omega
  have h3 : 3 * ((n - 4 * y) / 3) = n - 4 * y :=
    Nat.mul_div_cancel' (Nat.dvd_of_mod_eq_zero hmod)
  simp only [List.sum_append, List.sum_replicate, smul_eq_mul]
  omega

theorem igs_sum (n : Nat) :
    (initial_group_structure n).sum = n ∨ initial_group_structure n = [] := by
  cases h : searchY n 0 (n / 4 + 1) with
  | none => right; rw [initial_group_structure, h]
  | some y => left; exact igs_sum_of_some h

theorem igs_eq_nil_iff (n : Nat) :
    initial_group_structure n = [] ↔ (n = 0 ∨ n = 1 ∨ n = 2 ∨ n = 5) := by
  constructor
  · intro h
    cases hs : searchY n 0 (n / 4 + 1) with
    | some y =>
      have hsum := igs_sum_of_some hs
      rw [h] at hsum
      left; simpa using hsum.symm
    | none =>
      have hnone := searchY_none_spec hs
      have h0 : (n - 4 * 0) % 3 ≠ 0 := hnone 0 (le_refl _) (by omega)
      have hn3 : n % 3 ≠ 0 := by omega
      by_cases h4 : 4 ≤ n
      · have h1 : (n - 4 * 1) % 3 ≠ 0 := hnone 1 (by omega) (by omega)
        by_cases h8 : 8 ≤ n
        · have h2 : (n - 4 * 2) % 3 ≠ 0 := hnone 2 (by omega) (by omega)
          omega
        · omega
      · omega
  · intro h
    rcases h with rfl | rfl | rfl | rfl <;> rfl

theorem igs_min_four {n y : Nat} (h : searchY n 0 (n / 4 + 1) = some y)
    {x2 y2 : Nat} (h2 : 3 * x2 + 4 * y2 = n) : y ≤ y2 := by
  by_contra hlt
  obtain ⟨-, -, -, hmin⟩ := searchY_some_spec h
  exact hmin y2 (Nat.zero_le _) (by omega) (by omega)

/-- C3: for every `n ≥ 1`, `initial_group_structure n` is empty exactly when
`n ∈ {1, 2, 5}`; otherwise it consists of 3s followed by 4s, sums to `n`, and
uses the minimal possible number of 4s; and `initial_group_structure 4 = [4]`
(the docstring's claim that `n = 4` is infeasible is wrong, as the spec notes). -/
theorem C3_size_planner (n : Nat) (hn : 1 ≤ n) :
    (initial_group_structure n = [] ↔ (n = 1 ∨ n = 2 ∨ n = 5)) ∧
    (¬(n = 1 ∨ n = 2 ∨ n = 5) →
      ∃ x y, initial_group_structure n = List.replicate x 3 ++ List.replicate y 4 ∧
        3 * x + 4 * y = n ∧
        ∀ x2 y2, 3 * x2 + 4 * y2 = n → y ≤ y2) ∧
    initial_group_structure 4 = [4] := by
  refine ⟨?_, ?_, rfl⟩
  · rw [igs_eq_nil_iff]; omega
  · intro hno
    cases hs : searchY n 0 (n / 4 + 1) with
    | none =>
      exfalso
      have : initial_group_structure n = [] := by rw [initial_group_structure, hs]
      rw [igs_eq_nil_iff] at this
      omega
    | some y =>
      refine ⟨(n - 4 * y) / 3, y, igs_of_searchY_some hs, ?_, fun x2 y2 hx => igs_min_four hs hx⟩
      have hsum := igs_sum_of_some hs
      rw [igs_of_searchY_some hs] at hsum
      simp only [List.sum_append, List.sum_replicate, smul_eq_mul] at hsum
      omega

/-- Witness for C3 at `n = 7`. -/
theorem C3_size_planner_witness :
    (initial_group_structure 7 = [] ↔ (7 = 1 ∨ 7 = 2 ∨ 7 = 5)) ∧
    (¬(7 = 1 ∨ 7 = 2 ∨ 7 = 5) →
      ∃ x y, initial_group_structure 7 = List.replicate x 3 ++ List.replicate y 4 ∧
        3 * x + 4 * y = 7 ∧
        ∀ x2 y2, 3 * x2 + 4 * y2 = 7 → y ≤ y2) ∧
    initial_group_structure 4 = [4] :=
  C3_size_planner 7 (by decide)

/-- Model of `grouping_conflict_score`: the weight dictionary is a function
`w` on ordered pairs of roster numbers (a lookup keyed by
`frozenset((a, b))` with default 0 is one such function, necessarily
symmetric); the score sums `w` over all combination pairs of the group. -/
def grouping_conflict_score (group : List Nat) (w : Nat → Nat → Nat) : Nat :=
  ((combPairs group).map fun e => w e.1 e.2).sum

/-- Model of the inline `sum(grouping_conflict_score(group, past_pairings) for
group in assignment)` of `assign_groups`. -/
def total_conflict_score (assignment : List (List Nat)) (w : Nat → Nat → Nat) : Nat :=
  (assignment.map fun g => grouping_conflict_score g w).sum

/-- The score state of `assign_groups`: Python's `None`, `float('inf')`, or an
integer score. -/
inductive PyScore : Type where
  | none : PyScore
  | inf : PyScore
  | val : Nat → PyScore
deriving DecidableEq

/-- The comparison `total_score < best_score` of `assign_groups` (`best_score`
is `float('inf')` or an integer while the loop runs; `None` never reaches the
comparison). -/
def scoreLt (x : Nat) : PyScore → Bool
  | PyScore.none => false
  | PyScore.inf => true
  | PyScore.val b => decide (x < b)

/-- Model of the group-forming inner loop of `assign_groups`: slice the
shuffled list into consecutive groups of the given sizes, guarded by
`start + size <= n`; returns `Option.none` when the guard fails (`valid =
False`, the attempt is skipped). -/
def formGroups : List Nat → List Nat → Nat → Nat → Option (List (List Nat))
  | _, [], _, _ => some []
  | l, s :: rest, start, n =>
    if start + s ≤ n then
      match formGroups (l.drop s) rest (start + s) n with
      | Option.some gs => some (l.take s :: gs)
      | Option.none => Option.none
    else Option.none

/-- Unguarded slicing of a list into consecutive groups of the given sizes. -/
def sliceList : List Nat → List Nat → List (List Nat)
  | _, [] => []
  | l, s :: rest => l.take s :: sliceList (l.drop s) rest

/-- Model of the attempts loop of `assign_groups`.  `sh i` is the content of
the in-place-shuffled `students` list at attempt `i` (an arbitrary stream of
permutations models `random.shuffle`); `i` is the attempt index, the second
argument the number of attempts left, and the last argument the recorded
`(best_assignment, best_score)` pair. -/
def assignLoop (w : Nat → Nat → Nat) (sizes : List Nat) (n : Nat) (sh : Nat → List Nat) :
    Nat → Nat → Option (List (List Nat)) × PyScore → Option (List (List Nat)) × PyScore
  | _, 0, best => best
  | i, Nat.succ rem, best =>
    match formGroups (sh i) sizes 0 n with
    | Option.none => assignLoop w sizes n sh (i + 1) rem best
    | Option.some assignment =>
      if scoreLt (total_conflict_score assignment w) best.2 then
        if total_conflict_score assignment w = 0 then
          (some assignment, PyScore.val (total_conflict_score assignment w))
        else
          assignLoop w sizes n sh (i + 1) rem
            (some assignment, PyScore.val (total_conflict_score assignment w))
      else assignLoop w sizes n sh (i + 1) rem best

/-- Model of `assign_groups`.  `students` is `present_students['Roster'].tolist()`;
`max_attempts` is an `Int` so that non-positive budgets (empty `range`) are
representable; `sh` models the successive shuffles. -/
def assign_groups (students : List Nat) (w : Nat → Nat → Nat) (max_attempts : Int)
    (sh : Nat → List Nat) : Option (List (List Nat)) × PyScore :=
  let n := students.length
  let ideal := initial_group_structure n
  if ideal = [] ∨ ideal.sum ≠ n then (Option.none, PyScore.none)
  else assignLoop w ideal n sh 0 max_attempts.toNat (Option.none, PyScore.inf)

/-- The candidate partition examined at attempt `i`. -/
def attemptPart (sizes : List Nat) (sh : Nat → List Nat) (i : Nat) : List (List Nat) :=
  sliceList (sh i) sizes

/-- The conflict score of the candidate examined at attempt `i`. -/
def attemptScore (w : Nat → Nat → Nat) (sizes : List Nat) (sh : Nat → List Nat) (i : Nat) : Nat :=
  total_conflict_score (attemptPart sizes sh i) w

theorem formGroups_eq_slice :
    ∀ (sizes : List Nat) (l : List Nat) (start n : Nat), start + sizes.sum ≤ n →
      formGroups l sizes start n = some (sliceList l sizes) := by
  intro sizes
  induction sizes with
  | nil => intro l start n h; rfl
  | cons s rest ih =>
    intro l start n h
    rw [List.sum_cons] at h
    rw [formGroups, if_pos (by omega), ih (l.drop s) (start + s) n (by omega)]
    rfl

theorem sliceList_flatten :
    ∀ (sizes : List Nat) (l : List Nat), sizes.sum = l.length →
      (sliceList l sizes).flatten = l := by
  intro sizes
  induction sizes with
  | nil =>
    intro l h
    rw [List.sum_nil] at h
    rw [sliceList, List.flatten_nil, List.eq_nil_of_length_eq_zero h.symm]
  | cons s rest ih =>
    intro l h
    rw [List.sum_cons] at h
    rw [sliceList, List.flatten_cons, ih (l.drop s) (by simp; omega),
      List.take_append_drop]

theorem sliceList_lengths :
    ∀ (sizes : List Nat) (l : List Nat), sizes.sum ≤ l.length →
      (sliceList l sizes).map List.length = sizes := by
  intro sizes
  induction sizes with
  | nil => intro l h; rfl
  | cons s rest ih =>
    intro l h
    rw [List.sum_cons] at h
    rw [sliceList, List.map_cons, List.length_take,
      ih (l.drop s) (by simp; omega)]
    congr 1
    omega

theorem assignLoop_succ_none (w : Nat → Nat → Nat) (sizes : List Nat) (n : Nat)
    (sh : Nat → List Nat) (i rem : Nat) (best : Option (List (List Nat)) × PyScore)
    (hf : formGroups (sh i) sizes 0 n = Option.none) :
    assignLoop w sizes n sh i (rem + 1) best = assignLoop w sizes n sh (i + 1) rem best := by
  rw [assignLoop, hf]

theorem assignLoop_succ_some (w : Nat → Nat → Nat) (sizes : List Nat) (n : Nat)
    (sh : Nat → List Nat) (i rem : Nat) (bp : Option (List (List Nat))) (bs : PyScore)
    (assignment : List (List Nat))
    (hf : formGroups (sh i) sizes 0 n = some assignment) :
    assignLoop w sizes n sh i (rem + 1) (bp, bs) =
      if scoreLt (total_conflict_score assignment w) bs = true then
        if total_conflict_score assignment w = 0 then
          (some assignment, PyScore.val (total_conflict_score assignment w))
        else
          assignLoop w sizes n sh (i + 1) rem
            (some assignment, PyScore.val (total_conflict_score assignment w))
      else assignLoop w sizes n sh (i + 1) rem (bp, bs) := by
  rw [assignLoop, hf]

theorem assignLoop_snd_ne_none (w : Nat → Nat → Nat) (sizes : List Nat) (n : Nat)
    (sh : Nat → List Nat) :
    ∀ (rem i : Nat) (best : Option (List (List Nat)) × PyScore),
      best.2 ≠ PyScore.none → (assignLoop w sizes n sh i rem best).2 ≠ PyScore.none := by
  intro rem
  induction rem with
  | zero => intro i best h; exact h
  | succ rem ih =>
    intro i best h
    obtain ⟨bp, bs⟩ := best
    cases hf : formGroups (sh i) sizes 0 n with
    | none =>
      rw [assignLoop_succ_none w sizes n sh i rem _ hf]
      exact ih (i + 1) _ h
    | some assignment =>
      rw [assignLoop_succ_some w sizes n sh i rem bp bs assignment hf]
      by_cases h1 : scoreLt (total_conflict_score assignment w) bs = true
      · rw [if_pos h1]
        by_cases h2 : total_conflict_score assignment w = 0
        · rw [if_pos h2]; simp
        · rw [if_neg h2]; exact ih _ _ (by simp)
      · rw [if_neg h1]; exact ih _ _ h

theorem assign_groups_feasible_branch (students : List Nat) (w : Nat → Nat → Nat)
    (ma : Int) (sh : Nat → List Nat)
    (hfeas : ¬(students.length = 0 ∨ students.length = 1 ∨ students.length = 2 ∨
      students.length = 5)) :
    assign_groups students w ma sh
      = assignLoop w (initial_group_structure students.length) students.length sh 0
          ma.toNat (Option.none, PyScore.inf) := by
  have hne : initial_group_structure students.length ≠ [] := by
    rw [Ne, igs_eq_nil_iff]; exact hfeas
  have hsum : (initial_group_structure students.length).sum = students.length := by
    rcases igs_sum students.length with h | h
    · exact h
    · exact absurd h hne
  simp only [assign_groups]
  rw [if_neg]
  push_neg
  exact ⟨hne, hsum⟩

theorem assignLoop_char (w : Nat → Nat → Nat) (sizes : List Nat) (n : Nat)
    (sh : Nat → List Nat)
    (HF : ∀ i, formGroups (sh i) sizes 0 n = some (attemptPart sizes sh i)) :
    ∀ (rem i j : Nat), attemptScore w sizes sh j ≠ 0 → j < i →
      (∀ m, m < j → attemptScore w sizes sh j < attemptScore w sizes sh m) →
      (∀ m, j < m → m < i → attemptScore w sizes sh j ≤ attemptScore w sizes sh m) →
      ∃ k, assignLoop w sizes n sh i rem
            (some (attemptPart sizes sh j), PyScore.val (attemptScore w sizes sh j))
          = (some (attemptPart sizes sh k), PyScore.val (attemptScore w sizes sh k))
        ∧ k < i + rem
        ∧ (∀ m, m < k → attemptScore w sizes sh k < attemptScore w sizes sh m)
        ∧ (∀ m, m < i + rem → attemptScore w sizes sh k ≤ attemptScore w sizes sh m) := by
  intro rem
  induction rem with
  | zero =>
    intro i j hj0 hji hstrict hge
    refine ⟨j, rfl, by omega, hstrict, fun m hm => ?_⟩
    rcases Nat.lt_trichotomy m j with h | rfl | h
    · exact le_of_lt (hstrict m h)
    · exact le_refl _
    · exact hge m h (by omega)
  | succ rem ih =>
    intro i j hj0 hji hstrict hge
    rw [assignLoop_succ_some w sizes n sh i rem (some (attemptPart sizes sh j))
      (PyScore.val (attemptScore w sizes sh j)) (attemptPart sizes sh i) (HF i)]
    by_cases hlt : attemptScore w sizes sh i < attemptScore w sizes sh j
    · have hsc : scoreLt (total_conflict_score (attemptPart sizes sh i) w)
          (PyScore.val (attemptScore w sizes sh j)) = true := by
        simp only [scoreLt, decide_eq_true_eq]
        exact hlt
      rw [if_pos hsc]
      have hstricti : ∀ m, m < i → attemptScore w sizes sh i < attemptScore w sizes sh m := by
        intro m hm
        rcases Nat.lt_trichotomy m j with h | rfl | h
        · exact lt_trans hlt (hstrict m h)
        · exact hlt
        · exact lt_of_lt_of_le hlt (hge m h hm)
      by_cases hz : total_conflict_score (attemptPart sizes sh i) w = 0
      · rw [if_pos hz]
        refine ⟨i, rfl, by omega, hstricti, fun m hm => ?_⟩
        have : attemptScore w sizes sh i = 0 := hz
        rw [this]
        exact Nat.zero_le _
      · rw [if_neg hz]
        obtain ⟨k, hk1, hk2, hk3, hk4⟩ :=
          ih (i + 1) i hz (by omega) hstricti (fun m h1 h2 => by omega)
        exact ⟨k, hk1, by omega, hk3, fun m hm => hk4 m (by omega)⟩
    · have hsc : ¬(scoreLt (total_conflict_score (attemptPart sizes sh i) w)
          (PyScore.val (attemptScore w sizes sh j)) = true) := by
        simp only [scoreLt, decide_eq_true_eq]
        exact hlt
      rw [if_neg hsc]
      have hgei : ∀ m, j < m → m < i + 1 → attemptScore w sizes sh j ≤ attemptScore w sizes sh m := by
        intro m h1 h2
        rcases Nat.lt_or_ge m i with h | h
        · exact hge m h1 h
        · have : m = i := by omega
          subst this
          exact Nat.le_of_not_lt hlt
      obtain ⟨k, hk1, hk2, hk3, hk4⟩ := ih (i + 1) j hj0 (by omega) hstrict hgei
      exact ⟨k, hk1, by omega, hk3, fun m hm => hk4 m (by omega)⟩

theorem assignLoop_start (w : Nat → Nat → Nat) (sizes : List Nat) (n : Nat)
    (sh : Nat → List Nat)
    (HF : ∀ i, formGroups (sh i) sizes 0 n = some (attemptPart sizes sh i))
    (rem : Nat) :
    ∃ k, assignLoop w sizes n sh 0 (rem + 1) (Option.none, PyScore.inf)
        = (some (attemptPart sizes sh k), PyScore.val (attemptScore w sizes sh k))
      ∧ k < rem + 1
      ∧ (∀ m, m < k → attemptScore w sizes sh k < attemptScore w sizes sh m)
      ∧ (∀ m, m < rem + 1 → attemptScore w sizes sh k ≤ attemptScore w sizes sh m) := by
  rw [assignLoop_succ_some w sizes n sh 0 rem Option.none PyScore.inf
    (attemptPart sizes sh 0) (HF 0)]
  have hsc : scoreLt (total_conflict_score (attemptPart sizes sh 0) w) PyScore.inf = true := rfl
  rw [if_pos hsc]
  by_cases hz : total_conflict_score (attemptPart sizes sh 0) w = 0
  · rw [if_pos hz]
    refine ⟨0, rfl, by omega, fun m hm => by omega, fun m hm => ?_⟩
    have : attemptScore w sizes sh 0 = 0 := hz
    rw [this]
    exact Nat.zero_le _
  · rw [if_neg hz]
    obtain ⟨k, hk1, hk2, hk3, hk4⟩ :=
      assignLoop_char w sizes n sh HF rem 1 0 hz (by omega)
        (fun m hm => by omega) (fun m h1 h2 => by omega)
    exact ⟨k, hk1, by omega, hk3, fun m hm => hk4 m (by omega)⟩

theorem assignLoop_agree (w : Nat → Nat → Nat) (sizes : List Nat) (n : Nat)
    (sh sh2 : Nat → List Nat)
    (HF : ∀ i, formGroups (sh i) sizes 0 n = some (attemptPart sizes sh i)) :
    ∀ (rem i : Nat) (best : Option (List (List Nat)) × PyScore),
      scoreLt 0 best.2 = true →
      ∀ j0, i ≤ j0 → attemptScore w sizes sh j0 = 0 →
      (∀ m, i ≤ m → m ≤ j0 → sh2 m = sh m) →
      assignLoop w sizes n sh2 i rem best = assignLoop w sizes n sh i rem best := by
  intro rem
  induction rem with
  | zero => intro i best hb j0 hij hj0 hag; rfl
  | succ rem ih =>
    intro i best hb j0 hij hj0 hag
    obtain ⟨bp, bs⟩ := best
    have hsh : sh2 i = sh i := hag i (le_refl _) hij
    have hf2 : formGroups (sh2 i) sizes 0 n = some (attemptPart sizes sh i) := by
      rw [hsh]; exact HF i
    rw [assignLoop_succ_some w sizes n sh2 i rem bp bs (attemptPart sizes sh i) hf2,
      assignLoop_succ_some w sizes n sh i rem bp bs (attemptPart sizes sh i) (HF i)]
    by_cases hlt : scoreLt (total_conflict_score (attemptPart sizes sh i) w) bs = true
    · simp only [if_pos hlt]
      by_cases hz : total_conflict_score (attemptPart sizes sh i) w = 0
      · simp only [if_pos hz]
      · simp only [if_neg hz]
        have hij2 : i < j0 := by
          rcases Nat.eq_or_lt_of_le hij with rfl | h
          · exact absurd hj0 hz
          · exact h
        exact ih (i + 1)
          (some (attemptPart sizes sh i),
            PyScore.val (total_conflict_score (attemptPart sizes sh i) w))
          (by simp [scoreLt]; omega) j0 (by omega) hj0
          (fun m h1 h2 => hag m (by omega) h2)
    · simp only [if_neg hlt]
      have hij2 : i < j0 := by
        rcases Nat.eq_or_lt_of_le hij with rfl | h
        · exfalso
          apply hlt
          have : total_conflict_score (attemptPart sizes sh i) w = 0 := hj0
          rw [this]
          exact hb
        · exact h
      exact ih (i + 1) (bp, bs) hb j0 (by omega) hj0 (fun m h1 h2 => hag m (by omega) h2)

theorem igs_sum_of_feasible (n : Nat)
    (hfeas : ¬(n = 0 ∨ n = 1 ∨ n = 2 ∨ n = 5)) :
    (initial_group_structure n).sum = n := by
  rcases igs_sum n with h | h
  · exact h
  · rw [igs_eq_nil_iff] at h
    exact absurd h hfeas

theorem HF_of_perm (students : List Nat) (sh : Nat → List Nat)
    (hsh : ∀ i, (sh i).Perm students)
    (hsum : (initial_group_structure students.length).sum = students.length) :
    ∀ i, formGroups (sh i) (initial_group_structure students.length) 0 students.length
      = some (attemptPart (initial_group_structure students.length) sh i) :=
  fun i => formGroups_eq_slice _ _ 0 _ (by rw [hsum]; omega)

/-- A partition of `students` into the planned sizes: its flattening is a
permutation of `students` and its group lengths are the plan, in order. -/
def IsValidPartition (students : List Nat) (sizes : List Nat) (P : List (List Nat)) : Prop :=
  P.flatten.Perm students ∧ P.map List.length = sizes

/-- C1 (amended: the `0` count must be excluded along with `{1, 2, 5}`): for a
duplicate-free present list of feasible size, a positive attempts budget, and
any stream of shuffles, `assign_groups` returns a partition whose groups are
pairwise disjoint, whose union is the present set, and whose group sizes equal
the plan of `initial_group_structure`, element-wise in order. -/
theorem C1_assign_partition (students : List Nat) (w : Nat → Nat → Nat) (ma : Int)
    (sh : Nat → List Nat)
    (hfeas : ¬(students.length = 0 ∨ students.length = 1 ∨ students.length = 2 ∨
      students.length = 5))
    (hma : 1 ≤ ma) (hnd : students.Nodup) (hsh : ∀ i, (sh i).Perm students) :
    ∃ P, (assign_groups students w ma sh).1 = some P ∧
      List.Pairwise List.Disjoint P ∧
      (∀ x, x ∈ P.flatten ↔ x ∈ students) ∧
      P.map List.length = initial_group_structure students.length := by
  have hsum := igs_sum_of_feasible students.length hfeas
  have HF := HF_of_perm students sh hsh hsum
  obtain ⟨rem, hrem⟩ : ∃ rem, ma.toNat = rem + 1 := ⟨ma.toNat - 1, by omega⟩
  obtain ⟨k, hk1, -, -, -⟩ :=
    assignLoop_start w (initial_group_structure students.length) students.length sh HF rem
  have hlen : (sh k).length = students.length := (hsh k).length_eq
  have hfl : (attemptPart (initial_group_structure students.length) sh k).flatten = sh k :=
    sliceList_flatten _ _ (by rw [hsum, hlen])
  refine ⟨attemptPart (initial_group_structure students.length) sh k, ?_, ?_, ?_, ?_⟩
  · rw [assign_groups_feasible_branch students w ma sh hfeas, hrem, hk1]
  · have hns : (sh k).Nodup := ((hsh k).nodup_iff).mpr hnd
    have : (attemptPart (initial_group_structure students.length) sh k).flatten.Nodup := by
      rw [hfl]; exact hns
    exact (List.nodup_flatten.mp this).2
  · intro x
    rw [hfl]
    exact (hsh k).mem_iff
  · exact sliceList_lengths _ _ (by rw [hsum, hlen])

/-- C1 counterexample: the empty present list has size `0 ∉ {1, 2, 5}`, which
the claim counts as feasible, yet `assign_groups` returns no partition. -/
theorem C1_counterexample :
    ¬(List.length ([] : List Nat) = 1 ∨ List.length ([] : List Nat) = 2 ∨
      List.length ([] : List Nat) = 5) ∧
    (assign_groups [] (fun _ _ => 0) 1000 (fun _ => [])).1 = Option.none :=
  ⟨by decide, by decide⟩

/-- Witness for C1 on three students with one attempt. -/
theorem C1_assign_partition_witness :
    ∃ P, (assign_groups [1, 2, 3] (fun _ _ => 0) 1 (fun _ => [1, 2, 3])).1 = some P ∧
      List.Pairwise List.Disjoint P ∧
      (∀ x, x ∈ P.flatten ↔ x ∈ [1, 2, 3]) ∧
      P.map List.length = initial_group_structure (List.length [1, 2, 3]) :=
  C1_assign_partition [1, 2, 3] (fun _ _ => 0) 1 (fun _ => [1, 2, 3])
    (by decide) (by decide) (by decide) (fun i => List.Perm.refl _)

/-- C4 (amended: `n = 0` is also infeasible in the code, because the empty plan
trips the `if not ideal_sizes` guard): `assign_groups` returns `(None, None)`
exactly when the present count is in `{0, 1, 2, 5}`. -/
theorem C4_infeasible_iff (students : List Nat) (w : Nat → Nat → Nat) (ma : Int)
    (sh : Nat → List Nat) :
    assign_groups students w ma sh = (Option.none, PyScore.none)
      ↔ (students.length = 0 ∨ students.length = 1 ∨ students.length = 2 ∨
          students.length = 5) := by
  constructor
  · intro h
    by_contra hfeas
    have hb := assign_groups_feasible_branch students w ma sh hfeas
    rw [h] at hb
    have hne := assignLoop_snd_ne_none w (initial_group_structure students.length)
      students.length sh ma.toNat 0 (Option.none, PyScore.inf) (by decide)
    rw [← hb] at hne
    exact hne rfl
  · intro h
    simp only [assign_groups]
    rw [if_pos (Or.inl ((igs_eq_nil_iff students.length).mpr h))]

/-- C4 counterexample: for zero present students (`0 ∉ {1, 2, 5}`) the function
does fail, returning the infeasible `(None, None)` result. -/
theorem C4_counterexample :
    List.length ([] : List Nat) = 0 ∧
    assign_groups [] (fun _ _ => 0) 1000 (fun _ => []) = (Option.none, PyScore.none) :=
  ⟨by decide, by decide⟩

/-- C5: on feasible input the returned score is the total conflict score of the
returned partition, the returned partition is a valid partition into the
planned sizes, and hence every lower bound of the scores of all valid
partitions (in particular, the true minimum) is at most the returned score. -/
theorem C5_score_lower_bound (students : List Nat) (w : Nat → Nat → Nat) (ma : Int)
    (sh : Nat → List Nat)
    (hfeas : ¬(students.length = 0 ∨ students.length = 1 ∨ students.length = 2 ∨
      students.length = 5))
    (hma : 1 ≤ ma) (hsh : ∀ i, (sh i).Perm students) :
    ∃ P, assign_groups students w ma sh = (some P, PyScore.val (total_conflict_score P w)) ∧
      IsValidPartition students (initial_group_structure students.length) P ∧
      ∀ c, (∀ Q, IsValidPartition students (initial_group_structure students.length) Q →
          c ≤ total_conflict_score Q w) →
        c ≤ total_conflict_score P w := by
  have hsum := igs_sum_of_feasible students.length hfeas
  have HF := HF_of_perm students sh hsh hsum
  obtain ⟨rem, hrem⟩ : ∃ rem, ma.toNat = rem + 1 := ⟨ma.toNat - 1, by omega⟩
  obtain ⟨k, hk1, -, -, -⟩ :=
    assignLoop_start w (initial_group_structure students.length) students.length sh HF rem
  have hlen : (sh k).length = students.length := (hsh k).length_eq
  have hfl : (attemptPart (initial_group_structure students.length) sh k).flatten = sh k :=
    sliceList_flatten _ _ (by rw [hsum, hlen])
  have hvalid : IsValidPartition students (initial_group_structure students.length)
      (attemptPart (initial_group_structure students.length) sh k) := by
    constructor
    · rw [hfl]; exact hsh k
    · exact sliceList_lengths _ _ (by rw [hsum, hlen])
  refine ⟨attemptPart (initial_group_structure students.length) sh k, ?_, hvalid,
    fun c hc => hc _ hvalid⟩
  rw [assign_groups_feasible_branch students w ma sh hfeas, hrem, hk1]
  rfl

/-- Witness for C5 on three students with one attempt. -/
theorem C5_score_lower_bound_witness :
    ∃ P, assign_groups [1, 2, 3] (fun _ _ => 1) 1 (fun _ => [1, 2, 3])
        = (some P, PyScore.val (total_conflict_score P (fun _ _ => 1))) ∧
      IsValidPartition [1, 2, 3] (initial_group_structure (List.length [1, 2, 3])) P ∧
      ∀ c, (∀ Q, IsValidPartition [1, 2, 3]
            (initial_group_structure (List.length [1, 2, 3])) Q →
          c ≤ total_conflict_score Q (fun _ _ => 1)) →
        c ≤ total_conflict_score P (fun _ _ => 1) :=
  C5_score_lower_bound [1, 2, 3] (fun _ _ => 1) 1 (fun _ => [1, 2, 3])
    (by decide) (by decide) (fun i => List.Perm.refl _)

/-- C6: the loop keeps the first candidate achieving its final (minimal) score:
the returned attempt index `j` beats every earlier attempt strictly, is at most
every attempt in the budget, and, when its score is zero, the result depends on
no shuffle past index `j` (the loop stops early). -/
theorem C6_first_min_and_early_stop (students : List Nat) (w : Nat → Nat → Nat) (ma : Int)
    (sh : Nat → List Nat)
    (hfeas : ¬(students.length = 0 ∨ students.length = 1 ∨ students.length = 2 ∨
      students.length = 5))
    (hma : 1 ≤ ma) (hsh : ∀ i, (sh i).Perm students) :
    ∃ j, j < ma.toNat ∧
      assign_groups students w ma sh
        = (some (attemptPart (initial_group_structure students.length) sh j),
           PyScore.val (attemptScore w (initial_group_structure students.length) sh j)) ∧
      (∀ m, m < j →
        attemptScore w (initial_group_structure students.length) sh j
          < attemptScore w (initial_group_structure students.length) sh m) ∧
      (∀ m, m < ma.toNat →
        attemptScore w (initial_group_structure students.length) sh j
          ≤ attemptScore w (initial_group_structure students.length) sh m) ∧
      (attemptScore w (initial_group_structure students.length) sh j = 0 →
        ∀ sh2, (∀ m, m ≤ j → sh2 m = sh m) →
          assign_groups students w ma sh2 = assign_groups students w ma sh) := by
  have hsum := igs_sum_of_feasible students.length hfeas
  have HF := HF_of_perm students sh hsh hsum
  obtain ⟨rem, hrem⟩ : ∃ rem, ma.toNat = rem + 1 := ⟨ma.toNat - 1, by omega⟩
  obtain ⟨k, hk1, hk2, hk3, hk4⟩ :=
    assignLoop_start w (initial_group_structure students.length) students.length sh HF rem
  refine ⟨k, by omega, ?_, hk3, fun m hm => hk4 m (by omega), ?_⟩
  · rw [assign_groups_feasible_branch students w ma sh hfeas, hrem, hk1]
  · intro hz sh2 hag
    rw [assign_groups_feasible_branch students w ma sh hfeas,
      assign_groups_feasible_branch students w ma sh2 hfeas]
    exact assignLoop_agree w (initial_group_structure students.length) students.length
      sh sh2 HF ma.toNat 0 (Option.none, PyScore.inf) rfl k (Nat.zero_le _) hz
      (fun m h1 h2 => hag m h2)

/-- Witness for C6 on three students with one attempt. -/
theorem C6_first_min_and_early_stop_witness :
    ∃ j, j < Int.toNat 1 ∧
      assign_groups [1, 2, 3] (fun _ _ => 0) 1 (fun _ => [1, 2, 3])
        = (some (attemptPart (initial_group_structure (List.length [1, 2, 3]))
              (fun _ => [1, 2, 3]) j),
           PyScore.val (attemptScore (fun _ _ => 0)
              (initial_group_structure (List.length [1, 2, 3])) (fun _ => [1, 2, 3]) j)) ∧
      (∀ m, m < j →
        attemptScore (fun _ _ => 0) (initial_group_structure (List.length [1, 2, 3]))
            (fun _ => [1, 2, 3]) j
          < attemptScore (fun _ _ => 0) (initial_group_structure (List.length [1, 2, 3]))
              (fun _ => [1, 2, 3]) m) ∧
      (∀ m, m < Int.toNat 1 →
        attemptScore (fun _ _ => 0) (initial_group_structure (List.length [1, 2, 3]))
            (fun _ => [1, 2, 3]) j
          ≤ attemptScore (fun _ _ => 0) (initial_group_structure (List.length [1, 2, 3]))
              (fun _ => [1, 2, 3]) m) ∧
      (attemptScore (fun _ _ => 0) (initial_group_structure (List.length [1, 2, 3]))
          (fun _ => [1, 2, 3]) j = 0 →
        ∀ sh2, (∀ m, m ≤ j → sh2 m = (fun _ => [1, 2, 3]) m) →
          assign_groups [1, 2, 3] (fun _ _ => 0) 1 sh2
            = assign_groups [1, 2, 3] (fun _ _ => 0) 1 (fun _ => [1, 2, 3])) :=
  C6_first_min_and_early_stop [1, 2, 3] (fun _ _ => 0) 1 (fun _ => [1, 2, 3])
    (by decide) (by decide) (fun i => List.Perm.refl _)

theorem total_conflict_score_zero (P : List (List Nat)) (w : Nat → Nat → Nat)
    (hw : ∀ a b, w a b = 0) : total_conflict_score P w = 0 := by
  rw [total_conflict_score]
  have hg : ∀ g, grouping_conflict_score g w = 0 := by
    intro g
    rw [grouping_conflict_score]
    have h1 : ((combPairs g).map fun e => w e.1 e.2) = (combPairs g).map fun _ => 0 :=
      List.map_congr_left fun e he => hw e.1 e.2
    rw [h1]
    simp
  have h2 : (P.map fun g => grouping_conflict_score g w) = P.map fun _ => 0 :=
    List.map_congr_left fun g hg2 => hg g
  rw [h2]
  simp

/-- C7: with an all-zero weight mapping, any positive attempts budget, any
feasible present list and any shuffle stream, `assign_groups` returns the first
attempt's partition with score 0 (and consults no later shuffle). -/
theorem C7_zero_weights (students : List Nat) (w : Nat → Nat → Nat) (ma : Int)
    (sh : Nat → List Nat) (hw : ∀ a b, w a b = 0)
    (hfeas : ¬(students.length = 0 ∨ students.length = 1 ∨ students.length = 2 ∨
      students.length = 5))
    (hma : 1 ≤ ma) (hsh : ∀ i, (sh i).Perm students) :
    assign_groups students w ma sh
      = (some (sliceList (sh 0) (initial_group_structure students.length)),
         PyScore.val 0) := by
  have hsum := igs_sum_of_feasible students.length hfeas
  have HF := HF_of_perm students sh hsh hsum
  obtain ⟨rem, hrem⟩ : ∃ rem, ma.toNat = rem + 1 := ⟨ma.toNat - 1, by omega⟩
  rw [assign_groups_feasible_branch students w ma sh hfeas, hrem,
    assignLoop_succ_some w (initial_group_structure students.length) students.length sh 0
      rem Option.none PyScore.inf
      (attemptPart (initial_group_structure students.length) sh 0) (HF 0)]
  have hz : total_conflict_score
      (attemptPart (initial_group_structure students.length) sh 0) w = 0 :=
    total_conflict_score_zero _ w hw
  have hsc : scoreLt (total_conflict_score
      (attemptPart (initial_group_structure students.length) sh 0) w) PyScore.inf = true := rfl
  rw [if_pos hsc, if_pos hz, hz]
  rfl

/-- Witness for C7 on three students with a large budget. -/
theorem C7_zero_weights_witness :
    assign_groups [1, 2, 3] (fun _ _ => 0) 1000 (fun _ => [1, 2, 3])
      = (some (sliceList [1, 2, 3] (initial_group_structure (List.length [1, 2, 3]))),
         PyScore.val 0) :=
  C7_zero_weights [1, 2, 3] (fun _ _ => 0) 1000 (fun _ => [1, 2, 3])
    (fun a b => rfl) (by decide) (by decide) (fun i => List.Perm.refl _)

/-- C8 (amended: the code has no `ConfigurationError`; a non-positive budget
merely makes the attempts `range` empty): with `max_attempts ≤ 0`,
`assign_groups` performs no attempt and returns `(None, None)` on infeasible
counts and `(None, float inf)` otherwise — a normal return, not an error. -/
theorem C8_nonpositive_attempts (students : List Nat) (w : Nat → Nat → Nat) (ma : Int)
    (sh : Nat → List Nat) (hma : ma ≤ 0) :
    assign_groups students w ma sh
      = (Option.none,
         if initial_group_structure students.length = [] ∨
            (initial_group_structure students.length).sum ≠ students.length
         then PyScore.none else PyScore.inf) := by
  have h0 : ma.toNat = 0 := by omega
  simp only [assign_groups, h0]
  by_cases hc : initial_group_structure students.length = [] ∨
      (initial_group_structure students.length).sum ≠ students.length
  · rw [if_pos hc, if_pos hc]
  · rw [if_neg hc, if_neg hc]
    rfl

/-- C8 counterexample: at budget `-5` on a feasible present list the call goes
through the search entry unrejected and returns the normal value
`(None, float inf)` — there is no `ConfigurationError` rejection in the code. -/
theorem C8_counterexample :
    assign_groups [1, 2, 3] (fun _ _ => 0) (-5) (fun _ => [1, 2, 3])
      = (Option.none, PyScore.inf) := by decide

/-- Witness for C8 at budget `0`. -/
theorem C8_nonpositive_attempts_witness :
    assign_groups [4, 5, 6] (fun _ _ => 0) 0 (fun _ => [4, 5, 6])
      = (Option.none, PyScore.inf) := by
  have h := C8_nonpositive_attempts [4, 5, 6] (fun _ _ => 0) 0 (fun _ => [4, 5, 6])
    (by decide)
  rw [h]
  decide

/-- The fixed `GROUP_NAMES` list of the source. -/
def GROUP_NAMES : List String :=
  ["cedar", "cypress", "spruce", "pine", "fir", "oak", "maple", "birch", "ash", "elm",
   "chestnut"]

/-- The enumerated loop of `assign_group_names`, producing the dict insertions
in order: for the group at index `i` (counting from `k`), every member `r` gets
the binding `(r, GROUP_NAMES[i % len(GROUP_NAMES)])`. -/
def assignGroupNamesAux : Nat → List (List Nat) → List (Nat × String)
  | _, [] => []
  | k, g :: rest =>
    (g.map fun r => (r, GROUP_NAMES.getD (k % GROUP_NAMES.length) ""))
      ++ assignGroupNamesAux (k + 1) rest

/-- Model of `assign_group_names`: the insertion-ordered bindings of the
returned dict. -/
def assign_group_names (assignment : List (List Nat)) : List (Nat × String) :=
  assignGroupNamesAux 0 assignment

/-- Python-dict lookup on an insertion-ordered binding list: the value of the
last binding with the given key, if any. -/
def dictGet (m : List (Nat × String)) (r : Nat) : Option String :=
  (m.reverse.find? fun e => e.1 == r).map fun e => e.2

theorem mem_assignGroupNamesAux (A : List (List Nat)) :
    ∀ (k : Nat) (p : Nat × String),
      p ∈ assignGroupNamesAux k A
        ↔ ∃ j, ∃ hj : j < A.length, p.1 ∈ A.get ⟨j, hj⟩ ∧
            p.2 = GROUP_NAMES.getD ((k + j) % GROUP_NAMES.length) "" := by
  induction A with
  | nil => intro k p; simp [assignGroupNamesAux]
  | cons g rest ih =>
    intro k p
    rw [assignGroupNamesAux, List.mem_append]
    constructor
    · intro h
      rcases h with h | h
      · obtain ⟨r, hr, he⟩ := List.mem_map.mp h
        refine ⟨0, by simp, ?_, ?_⟩
        · rw [← he]; exact hr
        · rw [← he]; simp
      · obtain ⟨j, hj, h1, h2⟩ := (ih (k + 1) p).mp h
        refine ⟨j + 1, by simpa using hj, h1, ?_⟩
        rw [h2]
        have he2 : k + 1 + j = k + (j + 1) := by omega
        rw [he2]
    · rintro ⟨j, hj, h1, h2⟩
      cases j with
      | zero =>
        left
        rw [List.mem_map]
        refine ⟨p.1, h1, ?_⟩
        rw [Nat.add_zero] at h2
        rw [← h2]
      | succ j =>
        right
        refine (ih (k + 1) p).mpr ⟨j, by simpa using hj, h1, ?_⟩
        rw [h2]
        have he2 : k + (j + 1) = k + 1 + j := by omega
        rw [he2]

theorem find?_map_eq_of {l : List (Nat × String)} {r : Nat} {v : String}
    (hex : ∃ e ∈ l, e.1 = r) (hall : ∀ e ∈ l, e.1 = r → e.2 = v) :
    (l.find? fun e => e.1 == r).map (fun e => e.2) = some v := by
  induction l with
  | nil =>
    obtain ⟨e, he, -⟩ := hex
    exact absurd he (List.not_mem_nil e)
  | cons e l ih =>
    by_cases h : e.1 = r
    · rw [List.find?_cons_of_pos _ (by simp [h])]
      simp [hall e (List.mem_cons_self e l) h]
    · rw [List.find?_cons_of_neg _ (by simp [h])]
      apply ih
      · obtain ⟨e2, he2, h2⟩ := hex
        rcases List.mem_cons.mp he2 with rfl | hmem
        · exact absurd h2 h
        · exact ⟨e2, hmem, h2⟩
      · exact fun e2 he2 h2 => hall e2 (List.mem_cons_of_mem _ he2) h2

theorem dictGet_eq_of {m : List (Nat × String)} {r : Nat} {v : String}
    (hex : ∃ e ∈ m, e.1 = r) (hall : ∀ e ∈ m, e.1 = r → e.2 = v) :
    dictGet m r = some v := by
  rw [dictGet]
  apply find?_map_eq_of
  · obtain ⟨e, he, h⟩ := hex
    exact ⟨e, List.mem_reverse.mpr he, h⟩
  · exact fun e he h => hall e (List.mem_reverse.mp he) h

/-- C9: for a partition with pairwise disjoint groups, every participant of the
`i`-th group is mapped to the name at index `i mod |GROUP_NAMES|`, cycling when
there are more groups than names. -/
theorem C9_group_names (assignment : List (List Nat))
    (hdisj : List.Pairwise List.Disjoint assignment)
    (i : Nat) (hi : i < assignment.length) (r : Nat)
    (hr : r ∈ assignment.get ⟨i, hi⟩) :
    dictGet (assign_group_names assignment) r
      = some (GROUP_NAMES.getD (i % GROUP_NAMES.length) "") := by
  apply dictGet_eq_of
  · refine ⟨(r, GROUP_NAMES.getD ((0 + i) % GROUP_NAMES.length) ""), ?_, rfl⟩
    exact (mem_assignGroupNamesAux assignment 0 _).mpr ⟨i, hi, hr, rfl⟩
  · intro e he h1
    obtain ⟨j, hj, h2, h3⟩ := (mem_assignGroupNamesAux assignment 0 e).mp he
    have hji : j = i := by
      by_contra hne
      rw [h1] at h2
      rcases Nat.lt_or_gt_of_ne hne with hlt | hgt
      · exact (List.pairwise_iff_get.mp hdisj ⟨j, hj⟩ ⟨i, hi⟩ hlt) h2 hr
      · exact (List.pairwise_iff_get.mp hdisj ⟨i, hi⟩ ⟨j, hj⟩ hgt) hr h2
    rw [h3, hji, Nat.zero_add]

/-- A concrete partition with 12 singleton groups. -/
def twelveGroups : List (List Nat) :=
  [[0], [1], [2], [3], [4], [5], [6], [7], [8], [9], [10], [11]]

/-- Witness for C9: with 12 groups and the 11-entry name list, groups 0 and 11
both receive the label "cedar". -/
theorem C9_group_names_witness :
    dictGet (assign_group_names twelveGroups) 0
        = some (GROUP_NAMES.getD (0 % GROUP_NAMES.length) "") ∧
    dictGet (assign_group_names twelveGroups) 11
        = some (GROUP_NAMES.getD (11 % GROUP_NAMES.length) "") ∧
    GROUP_NAMES.getD (0 % GROUP_NAMES.length) "" = "cedar" ∧
    GROUP_NAMES.getD (11 % GROUP_NAMES.length) "" = "cedar" :=
  ⟨C9_group_names twelveGroups
      (List.nodup_flatten.mp (by decide : twelveGroups.flatten.Nodup)).2
      0 (by decide) 0 (by decide),
   C9_group_names twelveGroups
      (List.nodup_flatten.mp (by decide : twelveGroups.flatten.Nodup)).2
      11 (by decide) 11 (by decide),
   by decide, by decide⟩

/-- A roster table: `rows` holds one `(Roster, Name)` pair per student and
`cols` the grouping columns (everything after the two leading `Roster` and
`Name` columns, which in a well-formed roster are exactly the `Iteration`
columns), with `Option.none` for a NaN cell. -/
structure Table : Type where
  rows : List (Nat × String)
  cols : List (List (Option String))

/-- The skip test of `compute_past_pairings`:
`df[col].dropna().isin(['x']).all()` — every non-null cell is the absence
marker. -/
def allX (col : List (Option String)) : Bool :=
  (col.filterMap id).all fun v => v == "x"

/-- The distinct non-null cell values of a column.  (`pandas` `unique` lists
them in first-occurrence order and `groupby` in sorted order; only the set of
values matters to the accumulated counts, so one canonical order serves both
models.) -/
def colValues (col : List (Option String)) : List String :=
  (col.filterMap id).dedup

/-- The rows whose cell in the given column equals `some v`
(`df[df[col] == v]`). -/
def rowsWithValue (rows : List (Nat × String)) (col : List (Option String)) (v : String) :
    List (Nat × String) :=
  (rows.zip col).filterMap fun e => if e.2 = some v then some e.1 else Option.none

/-- Per column, the row groups of each distinct non-null cell value. -/
def colRowGroups (rows : List (Nat × String)) (col : List (Option String)) :
    List (List (Nat × String)) :=
  (colValues col).map fun v => rowsWithValue rows col v

/-- The group history that `compute_past_pairings` extracts from the table:
skip all-`'x'` columns, then per distinct cell value gather the `Roster`
numbers (`df[df[col] == group]['Roster'].tolist()`). -/
def shuffleHistory (t : Table) : List (List (List Nat)) :=
  (t.cols.filter fun c => !(allX c)).map
    fun c => (colRowGroups t.rows c).map fun g => g.map Prod.fst

/-- `compute_past_pairings` applied to a roster table. -/
def compute_past_pairings_table (t : Table) (a b : Nat) : Nat :=
  compute_past_pairings (shuffleHistory t) a b

/-- The group history that `count_groupings` extracts from the table: every
column, per distinct cell value the member `Name`s
(`df.groupby(iteration)["Name"].apply(list)`); no skipping. -/
def reportHistory (t : Table) : List (List (List String)) :=
  t.cols.map fun c => (colRowGroups t.rows c).map fun g => g.map Prod.snd

/-- Model of `count_groupings`: the matrix entry for the (distinct) names
`(na, nb)` — incremented symmetrically once for every within-group pair of the
two names. -/
def count_groupings_table (t : Table) (na nb : String) : Nat :=
  (((reportHistory t).flatten.map combPairs).flatten).countP (pairMatch na nb)

/-- All row groups of the table, over every column. -/
def rowGroups (t : Table) : List (List (Nat × String)) :=
  (t.cols.map fun c => colRowGroups t.rows c).flatten

theorem combPairs_map {α β : Type} (f : α → β) (l : List α) :
    combPairs (l.map f) = (combPairs l).map fun e => (f e.1, f e.2) := by
  induction l with
  | nil => rfl
  | cons x xs ih =>
    rw [List.map_cons, combPairs, combPairs, ih, List.map_append, List.map_map,
      List.map_map]
    rfl

theorem mem_combPairs {α : Type} (l : List α) (e : α × α) (h : e ∈ combPairs l) :
    e.1 ∈ l ∧ e.2 ∈ l := by
  induction l with
  | nil => simp [combPairs] at h
  | cons x xs ih =>
    rw [combPairs, List.mem_append] at h
    rcases h with h | h
    · obtain ⟨y, hy, he⟩ := List.mem_map.mp h
      rw [← he]
      exact ⟨List.mem_cons_self x xs, List.mem_cons_of_mem x hy⟩
    · obtain ⟨h1, h2⟩ := ih h
      exact ⟨List.mem_cons_of_mem x h1, List.mem_cons_of_mem x h2⟩

theorem countP_combPairs_proj {β : Type} [DecidableEq β]
    (f : Nat × String → β) (G : List (Nat × String)) (rows : List (Nat × String))
    (hG : ∀ x ∈ G, x ∈ rows)
    (hinj : ∀ x ∈ rows, ∀ y ∈ rows, f x = f y → x = y)
    (p q : Nat × String) (hp : p ∈ rows) (hq : q ∈ rows) :
    (combPairs (G.map f)).countP (pairMatch (f p) (f q))
      = (combPairs G).countP (pairMatch p q) := by
  rw [combPairs_map, List.countP_map]
  refine List.countP_congr fun e he => ?_
  obtain ⟨h1, h2⟩ := mem_combPairs G e he
  have hm1 := hG e.1 h1
  have hm2 := hG e.2 h2
  simp only [Function.comp, pairMatch, decide_eq_true_eq]
  constructor
  · rintro (⟨ha, hb⟩ | ⟨ha, hb⟩)
    · exact Or.inl ⟨hinj _ hm1 _ hp ha, hinj _ hm2 _ hq hb⟩
    · exact Or.inr ⟨hinj _ hm1 _ hq ha, hinj _ hm2 _ hp hb⟩
  · rintro (⟨ha, hb⟩ | ⟨ha, hb⟩)
    · exact Or.inl ⟨by rw [ha], by rw [hb]⟩
    · exact Or.inr ⟨by rw [ha], by rw [hb]⟩

theorem rowsWithValue_subset {rows : List (Nat × String)} {col : List (Option String)}
    {v : String} {x : Nat × String} (h : x ∈ rowsWithValue rows col v) : x ∈ rows := by
  rw [rowsWithValue, List.mem_filterMap] at h
  obtain ⟨⟨a, ov⟩, he, h2⟩ := h
  dsimp only at h2
  by_cases hv : ov = some v
  · rw [if_pos hv] at h2
    obtain rfl : a = x := by simpa using h2
    exact (List.of_mem_zip he).1
  · rw [if_neg hv] at h2
    exact absurd h2 (by simp)

theorem rowGroups_subset {t : Table} {g : List (Nat × String)} (hg : g ∈ rowGroups t) :
    ∀ x ∈ g, x ∈ t.rows := by
  intro x hx
  rw [rowGroups, List.mem_flatten] at hg
  obtain ⟨gs, hgs, hgmem⟩ := hg
  obtain ⟨c, hc, hceq⟩ := List.mem_map.mp hgs
  rw [← hceq, colRowGroups] at hgmem
  obtain ⟨v, hv, hveq⟩ := List.mem_map.mp hgmem
  rw [← hveq] at hx
  exact rowsWithValue_subset hx

theorem shuffleHistory_flatten_of_noX {t : Table}
    (hx : ∀ c ∈ t.cols, allX c = false) :
    (shuffleHistory t).flatten = (rowGroups t).map fun g => g.map Prod.fst := by
  rw [shuffleHistory, rowGroups,
    List.filter_eq_self.mpr (fun c hc => by rw [hx c hc]; rfl),
    List.map_flatten, List.map_map]
  rfl

theorem reportHistory_flatten (t : Table) :
    (reportHistory t).flatten = (rowGroups t).map fun g => g.map Prod.snd := by
  rw [reportHistory, rowGroups, List.map_flatten, List.map_map]
  rfl

/-- C10 (amended: restricted to tables without an all-`'x'` column, which
`compute_past_pairings` skips but `count_groupings` counts): on such tables,
with distinct roster numbers and distinct names, the two pair counters agree on
every pair of participants. -/
theorem C10_pair_counts_agree (t : Table)
    (hf : (t.rows.map Prod.fst).Nodup) (hs : (t.rows.map Prod.snd).Nodup)
    (hx : ∀ c ∈ t.cols, allX c = false)
    (p q : Nat × String) (hp : p ∈ t.rows) (hq : q ∈ t.rows) :
    compute_past_pairings_table t p.1 q.1 = count_groupings_table t p.2 q.2 := by
  rw [compute_past_pairings_table, compute_past_pairings, count_groupings_table,
    shuffleHistory_flatten_of_noX hx, reportHistory_flatten,
    countP_flatten_eq, countP_flatten_eq, List.map_map, List.map_map,
    List.map_map, List.map_map]
  congr 1
  refine List.map_congr_left fun g hg => ?_
  have hsub := rowGroups_subset hg
  have h1 := countP_combPairs_proj Prod.fst g t.rows hsub
    (fun x hx2 y hy2 heq => List.inj_on_of_nodup_map hf hx2 hy2 heq) p q hp hq
  have h2 := countP_combPairs_proj Prod.snd g t.rows hsub
    (fun x hx2 y hy2 heq => List.inj_on_of_nodup_map hs hx2 hy2 heq) p q hp hq
  simp only [Function.comp]
  rw [h1, h2]

/-- A table whose single column is an all-`'x'` absence column. -/
def xTable : Table where
  rows := [(1, "A"), (2, "B")]
  cols := [[some "x", some "x"]]

/-- C10 counterexample: on a roster with distinct names in bijection with
roster numbers but a pending all-`'x'` iteration column, the shuffle script
counts 0 pairings for students 1 and 2 while the report script counts 1 for
names "A" and "B". -/
theorem C10_counterexample :
    (xTable.rows.map Prod.fst).Nodup ∧ (xTable.rows.map Prod.snd).Nodup ∧
    compute_past_pairings_table xTable 1 2 = 0 ∧
    count_groupings_table xTable "A" "B" = 1 := by decide

/-- A table with one completed iteration column. -/
def okTable : Table where
  rows := [(1, "A"), (2, "B"), (3, "C")]
  cols := [[some "g", some "g", some "h"]]

/-- Witness for C10 on a table with a completed grouping column. -/
theorem C10_pair_counts_agree_witness :
    compute_past_pairings_table okTable 1 2 = count_groupings_table okTable "A" "B" :=
  C10_pair_counts_agree okTable (by decide) (by decide) (by decide)
    (1, "A") (2, "B") (by decide) (by decide)

end GroupShuffle
